import Mathlib

/-!
# Verification of the RAG retrieval core and streaming relay of `server.ts`

This file shallowly embeds the algorithmic core of the chatbot server:

* `cosineSimilarity` (server.ts, lines 60–72): the similarity scorer;
* `retrieveContext` (server.ts, lines 74–85): scoring, sorting,
  top-2 selection and joining of the in-memory document store;
* the `/chat-stream` handler loop (server.ts, lines 188–201): the
  token-by-token streaming relay with its catch-all `res.end()`.

JavaScript numbers are idealized as exact real numbers extended with
`NaN` and the two infinities (IEEE-754 rounding and overflow are
abstracted away; the special values and their propagation rules are
modelled exactly).  Out-of-bounds array access, which in JavaScript
yields `undefined` and coerces to `NaN` in arithmetic, is modelled by
an explicit indexing function returning `NaN` out of range.

The remote embedding capability (`embedText`) is external to the
program, so the retrieval functions take the query embedding (the
value `embedText` returns) as an argument; the module-global
`documents` store is likewise passed explicitly.
-/

/-- A JavaScript number: `NaN`, `+Infinity`, `-Infinity`, or a finite
value idealized as an exact real.  The negative zero is identified
with zero. -/
inductive JSNum : Type
  | nan : JSNum
  | posInf : JSNum
  | negInf : JSNum
  | fin (x : ℝ) : JSNum

namespace JSNum

/-- JavaScript addition (`+`) on numbers: `NaN` is absorbing, opposite
infinities give `NaN`, finite values add exactly. -/
def add : JSNum → JSNum → JSNum
  | nan, _ => nan
  | _, nan => nan
  | posInf, negInf => nan
  | negInf, posInf => nan
  | posInf, posInf => posInf
  | posInf, fin _ => posInf
  | fin _, posInf => posInf
  | negInf, negInf => negInf
  | negInf, fin _ => negInf
  | fin _, negInf => negInf
  | fin x, fin y => fin (x + y)

/-- JavaScript subtraction (`-`) on numbers. -/
def sub : JSNum → JSNum → JSNum
  | nan, _ => nan
  | _, nan => nan
  | posInf, posInf => nan
  | negInf, negInf => nan
  | posInf, negInf => posInf
  | posInf, fin _ => posInf
  | fin _, negInf => posInf
  | negInf, posInf => negInf
  | negInf, fin _ => negInf
  | fin _, posInf => negInf
  | fin x, fin y => fin (x - y)

/-- JavaScript multiplication (`*`) on numbers: `NaN` is absorbing,
infinity times zero is `NaN`, otherwise infinities follow the sign
rule; finite values multiply exactly. -/
noncomputable def mul : JSNum → JSNum → JSNum
  | nan, _ => nan
  | _, nan => nan
  | posInf, posInf => posInf
  | posInf, negInf => negInf
  | negInf, posInf => negInf
  | negInf, negInf => posInf
  | posInf, fin y => if y = 0 then nan else if 0 < y then posInf else negInf
  | fin x, posInf => if x = 0 then nan else if 0 < x then posInf else negInf
  | negInf, fin y => if y = 0 then nan else if 0 < y then negInf else posInf
  | fin x, negInf => if x = 0 then nan else if 0 < x then negInf else posInf
  | fin x, fin y => fin (x * y)

/-- JavaScript `Math.sqrt`: `NaN` on `NaN` and on negative arguments
(including `-Infinity`), the exact square root otherwise. -/
noncomputable def sqrt : JSNum → JSNum
  | nan => nan
  | posInf => posInf
  | negInf => nan
  | fin x => if x < 0 then nan else fin (Real.sqrt x)

/-- JavaScript division (`/`) on numbers: `NaN` is absorbing,
`Inf/Inf` is `NaN`, `0/0` is `NaN`, a nonzero finite value divided by
zero gives a signed infinity (the `-0` divisor case is identified with
`+0`), finite nonzero divisions are exact. -/
noncomputable def div : JSNum → JSNum → JSNum
  | nan, _ => nan
  | _, nan => nan
  | posInf, posInf => nan
  | posInf, negInf => nan
  | negInf, posInf => nan
  | negInf, negInf => nan
  | posInf, fin y => if y < 0 then negInf else posInf
  | negInf, fin y => if y < 0 then posInf else negInf
  | fin _, posInf => fin 0
  | fin _, negInf => fin 0
  | fin x, fin y =>
      if y = 0 then
        if x = 0 then nan else if 0 < x then posInf else negInf
      else fin (x / y)

/-- The comparison `n > 0` on a JavaScript number (`NaN > 0` is
false), as used on the result of a sort comparator. -/
noncomputable def gtZero : JSNum → Bool
  | nan => false
  | posInf => true
  | negInf => false
  | fin x => decide (0 < x)

/-- The finite value carried by a `JSNum` (zero for the special
values); a convenience for stating theorems about finite scores. -/
def finPart : JSNum → ℝ
  | fin x => x
  | _ => 0

end JSNum

/-- Reading `xs[i]` in JavaScript: the element when `i` is in bounds,
otherwise `undefined`, which coerces to `NaN` inside the arithmetic of
`cosineSimilarity`. -/
def jsIdx (xs : List ℝ) (i : ℕ) : JSNum :=
  if h : i < xs.length then JSNum.fin xs[i] else JSNum.nan

/-- The accumulation pattern of the `for` loop in `cosineSimilarity`
(server.ts, lines 65–69): starting from `0`, add `f i` for
`i = 0, …, n-1`.  The three accumulators `dot`, `magA`, `magB` are
updated independently in the single source loop, so each is one
instance of this fold. -/
def loopAcc (f : ℕ → JSNum) (n : ℕ) : JSNum :=
  (List.range n).foldl (fun acc i => JSNum.add acc (f i)) (JSNum.fin 0)

/-- The `dot` accumulator of `cosineSimilarity`:
`dot += a[i] * b[i]` for `i < a.length`. -/
noncomputable def dotAcc (a b : List ℝ) : JSNum :=
  loopAcc (fun i => JSNum.mul (jsIdx a i) (jsIdx b i)) a.length

/-- The `magA` accumulator of `cosineSimilarity`:
`magA += a[i] * a[i]` for `i < a.length`. -/
noncomputable def magAAcc (a : List ℝ) : JSNum :=
  loopAcc (fun i => JSNum.mul (jsIdx a i) (jsIdx a i)) a.length

/-- The `magB` accumulator of `cosineSimilarity`:
`magB += b[i] * b[i]` for `i < a.length` (the loop bound is
`a.length`, exactly as in the source). -/
noncomputable def magBAcc (a b : List ℝ) : JSNum :=
  loopAcc (fun i => JSNum.mul (jsIdx b i) (jsIdx b i)) a.length

/-- `cosineSimilarity` (server.ts, lines 60–72):
`dot / (Math.sqrt(magA) * Math.sqrt(magB))` after the loop. -/
noncomputable def cosineSimilarity (a b : List ℝ) : JSNum :=
  JSNum.div (dotAcc a b)
    (JSNum.mul (JSNum.sqrt (magAAcc a)) (JSNum.sqrt (magBAcc a b)))

/-- A stored document (server.ts, lines 36–39): a text and its
embedding vector. -/
structure Document : Type where
  content : String
  embedding : List ℝ

/-- One element of the `scored` array built in `retrieveContext`
(server.ts, lines 77–80): a document content together with its
similarity score against the query embedding. -/
structure ScoredCandidate : Type where
  content : String
  score : JSNum

/-- The comparator passed to `scored.sort` (server.ts, line 82):
`(a, b) => b.score - a.score`. -/
def candidateCompare (x y : ScoredCandidate) : JSNum :=
  JSNum.sub y.score x.score

/-- The keep-in-order relation realized by `Array.prototype.sort`
with the comparator above: `x` may stay before `y` exactly when the
comparator does not return a value greater than zero (a `NaN`
comparator result is treated like zero).  `Array.prototype.sort` is
required by ECMAScript to be stable, so the sort is modelled by the
stable `List.mergeSort` under this relation. -/
noncomputable def candidateLE (x y : ScoredCandidate) : Bool :=
  !(JSNum.gtZero (candidateCompare x y))

/-- The `scored` array of `retrieveContext` (server.ts, lines 77–80):
one candidate per stored document, in store order. -/
noncomputable def scoredCandidates (queryEmbedding : List ℝ)
    (documents : List Document) : List ScoredCandidate :=
  documents.map fun doc =>
    { content := doc.content
      score := cosineSimilarity queryEmbedding doc.embedding }

/-- The `scored` array after the in-place `scored.sort((a, b) =>
b.score - a.score)` (server.ts, line 82). -/
noncomputable def rankedCandidates (queryEmbedding : List ℝ)
    (documents : List Document) : List ScoredCandidate :=
  (scoredCandidates queryEmbedding documents).mergeSort candidateLE

/-- `retrieveContext` (server.ts, lines 74–85), with the query
embedding (the result of the external `embedText` call) and the
module-global `documents` store passed explicitly:
`scored.slice(0, 2).map(d => d.content).join("\n")` after sorting. -/
noncomputable def retrieveContext (queryEmbedding : List ℝ)
    (documents : List Document) : String :=
  String.intercalate "\n"
    (((rankedCandidates queryEmbedding documents).take 2).map
      fun d => d.content)

/-- The `delta` object of a streaming chunk's choice: its `content`
field may be absent (`none` models JavaScript `undefined`). -/
structure ChunkDelta : Type where
  content : Option String

/-- One element of a streaming chunk's `choices` array. -/
structure ChunkChoice : Type where
  delta : ChunkDelta

/-- One chunk of the completion stream consumed by the
`/chat-stream` handler. -/
structure StreamChunk : Type where
  choices : List ChunkChoice

/-- The expression `chunk.choices[0]?.delta?.content` (server.ts,
line 189): `none` when the `choices` array is empty or the `content`
field is absent. -/
def chunkToken (c : StreamChunk) : Option String :=
  match c.choices.head? with
  | some choice => choice.delta.content
  | none => none

/-- An observable action performed on the HTTP response object:
`res.write(s)`, `res.end()`, or `res.status(code).json(body)` (the
last is what the non-streaming handler's error path does; the
streaming handler is shown never to emit it). -/
inductive ResponseEvent : Type where
  | write (s : String) : ResponseEvent
  | endResponse : ResponseEvent
  | errorJson (status : ℕ) (body : String) : ResponseEvent
deriving DecidableEq

/-- The `for await` loop of the `/chat-stream` handler (server.ts,
lines 188–194): for each chunk, `res.write(token)` exactly when the
token is truthy — present and not the empty string (`if (token)`). -/
def streamLoopEvents : List StreamChunk → List ResponseEvent
  | [] => []
  | c :: cs =>
      (match chunkToken c with
        | some t => if t = "" then [] else [ResponseEvent.write t]
        | none => []) ++ streamLoopEvents cs

/-- The response actions of the `/chat-stream` handler (server.ts,
lines 188–201) on a run in which the stream delivers `delivered`
chunks and then either completes normally (`failed = false`: the loop
finishes and `res.end()` runs, line 196) or aborts with an exception
(`failed = true`: the `catch` block logs server-side and runs
`res.end()`, lines 198–201).  Both arms are written out because they
are distinct control paths in the source. -/
def chatStreamEvents (delivered : List StreamChunk) (failed : Bool) :
    List ResponseEvent :=
  if failed then streamLoopEvents delivered ++ [ResponseEvent.endResponse]
  else streamLoopEvents delivered ++ [ResponseEvent.endResponse]

/-- The strings written by `res.write` among a list of response
events, in order. -/
def writtenStrings (evs : List ResponseEvent) : List String :=
  evs.filterMap fun e =>
    match e with
    | ResponseEvent.write s => some s
    | _ => none

/-- The token contents carried by a list of chunks (absent contents
contribute nothing), in arrival order. -/
def chunkContents (chunks : List StreamChunk) : List String :=
  chunks.filterMap chunkToken

/-- Concatenation of a list of strings, left to right. -/
def concatAll (l : List String) : String :=
  l.foldl (fun acc s => acc ++ s) ""

/-! ## Basic lemmas about the JavaScript number model -/

theorem JSNum.add_nan (x : JSNum) : JSNum.add x JSNum.nan = JSNum.nan := by
  cases x <;> rfl

theorem JSNum.nan_add (x : JSNum) : JSNum.add JSNum.nan x = JSNum.nan := by
  cases x <;> rfl

theorem JSNum.mul_nan (x : JSNum) : JSNum.mul x JSNum.nan = JSNum.nan := by
  cases x <;> rfl

theorem JSNum.nan_mul (x : JSNum) : JSNum.mul JSNum.nan x = JSNum.nan := by
  cases x <;> rfl

theorem JSNum.mul_commutative (x y : JSNum) : JSNum.mul x y = JSNum.mul y x := by
  cases x <;> cases y <;> simp [JSNum.mul, mul_comm]

theorem JSNum.div_nan_left (y : JSNum) :
    JSNum.div JSNum.nan y = JSNum.nan := by
  cases y <;> rfl

theorem jsIdx_lt {xs : List ℝ} {i : ℕ} (h : i < xs.length) :
    jsIdx xs i = JSNum.fin xs[i] := dif_pos h

theorem jsIdx_ge {xs : List ℝ} {i : ℕ} (h : xs.length ≤ i) :
    jsIdx xs i = JSNum.nan := dif_neg (by omega)

theorem loopAcc_zero (f : ℕ → JSNum) : loopAcc f 0 = JSNum.fin 0 := rfl

theorem loopAcc_succ (f : ℕ → JSNum) (n : ℕ) :
    loopAcc f (n + 1) = JSNum.add (loopAcc f n) (f n) := by
  simp [loopAcc, List.range_succ]

theorem loopAcc_congr {f g : ℕ → JSNum} {n : ℕ}
    (h : ∀ i < n, f i = g i) : loopAcc f n = loopAcc g n := by
  induction n with
  | zero => rfl
  | succ m ih =>
      rw [loopAcc_succ, loopAcc_succ, ih fun i hi => h i (by omega),
        h m (by omega)]

theorem loopAcc_fin {f : ℕ → JSNum} {g : ℕ → ℝ} {n : ℕ}
    (h : ∀ i < n, f i = JSNum.fin (g i)) :
    loopAcc f n = JSNum.fin (∑ i ∈ Finset.range n, g i) := by
  induction n with
  | zero => simp [loopAcc_zero]
  | succ m ih =>
      rw [loopAcc_succ, ih fun i hi => h i (by omega), h m (by omega),
        Finset.sum_range_succ]
      rfl

theorem loopAcc_nan {f : ℕ → JSNum} {n i : ℕ} (hi : i < n)
    (hf : f i = JSNum.nan) : loopAcc f n = JSNum.nan := by
  induction n with
  | zero => omega
  | succ m ih =>
      rw [loopAcc_succ]
      rcases Nat.lt_or_ge i m with h | h
      · rw [ih h, JSNum.nan_add]
      · have : i = m := by omega
        rw [← this, hf, JSNum.add_nan]

/-! ## Characterizations of the `cosineSimilarity` accumulators -/

theorem dotAcc_fin {a b : List ℝ} (h : a.length ≤ b.length) :
    dotAcc a b =
      JSNum.fin (∑ i ∈ Finset.range a.length, a.getD i 0 * b.getD i 0) := by
  refine loopAcc_fin fun i hi => ?_
  have hb : i < b.length := by omega
  rw [jsIdx_lt hi, jsIdx_lt hb]
  simp [JSNum.mul, List.getD_eq_getElem?_getD, List.getElem?_eq_getElem hi,
    List.getElem?_eq_getElem hb]

theorem magAAcc_fin (a : List ℝ) :
    magAAcc a =
      JSNum.fin (∑ i ∈ Finset.range a.length, a.getD i 0 * a.getD i 0) := by
  refine loopAcc_fin fun i hi => ?_
  rw [jsIdx_lt hi]
  simp [JSNum.mul, List.getD_eq_getElem?_getD, List.getElem?_eq_getElem hi]

theorem magBAcc_fin {a b : List ℝ} (h : a.length ≤ b.length) :
    magBAcc a b =
      JSNum.fin (∑ i ∈ Finset.range a.length, b.getD i 0 * b.getD i 0) := by
  refine loopAcc_fin fun i hi => ?_
  have hb : i < b.length := by omega
  rw [jsIdx_lt hb]
  simp [JSNum.mul, List.getD_eq_getElem?_getD, List.getElem?_eq_getElem hb]

theorem dotAcc_nan {a b : List ℝ} (h : b.length < a.length) :
    dotAcc a b = JSNum.nan := by
  refine loopAcc_nan h ?_
  rw [jsIdx_ge (Nat.le_refl _), jsIdx_lt h]
  rfl

theorem sqrt_fin_nonneg {x : ℝ} (h : 0 ≤ x) :
    JSNum.sqrt (JSNum.fin x) = JSNum.fin (Real.sqrt x) := by
  simp [JSNum.sqrt, not_lt.mpr h]

theorem JSNum.mul_fin_fin (x y : ℝ) :
    JSNum.mul (JSNum.fin x) (JSNum.fin y) = JSNum.fin (x * y) := rfl

theorem JSNum.div_fin_fin {y : ℝ} (x : ℝ) (h : y ≠ 0) :
    JSNum.div (JSNum.fin x) (JSNum.fin y) = JSNum.fin (x / y) := by
  simp [JSNum.div, h]

theorem JSNum.div_fin_zero_zero :
    JSNum.div (JSNum.fin 0) (JSNum.fin 0) = JSNum.nan := by
  simp [JSNum.div]

/-- A list with a nonzero entry has a positive sum of squares over its
index range. -/
theorem sumSq_pos {l : List ℝ} {n : ℕ} (hn : l.length = n)
    (h : ∃ x ∈ l, x ≠ 0) :
    0 < ∑ i ∈ Finset.range n, l.getD i 0 * l.getD i 0 := by
  obtain ⟨x, hxl, hx⟩ := h
  obtain ⟨j, hj, hji⟩ := List.mem_iff_getElem.mp hxl
  refine Finset.sum_pos' (fun i _ => mul_self_nonneg _)
    ⟨j, Finset.mem_range.mpr (by omega), ?_⟩
  have hgd : l.getD j 0 = x := by
    simp [List.getD_eq_getElem?_getD, List.getElem?_eq_getElem hj, hji]
  rw [hgd]
  exact mul_self_pos.mpr hx

/-- For equal-length vectors that each have a nonzero entry, the
similarity score is a finite value. -/
theorem cosineSimilarity_isFin (a b : List ℝ) (hlen : a.length = b.length)
    (ha : ∃ x ∈ a, x ≠ 0) (hb : ∃ x ∈ b, x ≠ 0) :
    ∃ u, cosineSimilarity a b = JSNum.fin u := by
  have hSA := sumSq_pos rfl ha
  have hSB := sumSq_pos hlen.symm hb
  refine ⟨(∑ i ∈ Finset.range a.length, a.getD i 0 * b.getD i 0) /
    (Real.sqrt (∑ i ∈ Finset.range a.length, a.getD i 0 * a.getD i 0) *
      Real.sqrt (∑ i ∈ Finset.range a.length, b.getD i 0 * b.getD i 0)), ?_⟩
  have hden : 0 <
      Real.sqrt (∑ i ∈ Finset.range a.length, a.getD i 0 * a.getD i 0) *
        Real.sqrt (∑ i ∈ Finset.range a.length, b.getD i 0 * b.getD i 0) :=
    mul_pos (Real.sqrt_pos.mpr hSA) (Real.sqrt_pos.mpr hSB)
  unfold cosineSimilarity
  rw [dotAcc_fin hlen.le, magAAcc_fin, magBAcc_fin hlen.le,
    sqrt_fin_nonneg hSA.le, sqrt_fin_nonneg hSB.le, JSNum.mul_fin_fin,
    JSNum.div_fin_fin _ hden.ne']

/-- C7: for every pair of equal-length vectors, `cosineSimilarity` is
symmetric: `similarity(a, b) = similarity(b, a)`.  In the exact-real
idealization the two values are equal on the nose, hence a fortiori
within any floating-point tolerance. -/
theorem cosineSimilarity_symm (a b : List ℝ) (h : a.length = b.length) :
    cosineSimilarity a b = cosineSimilarity b a := by
  unfold cosineSimilarity
  have hdot : dotAcc a b = dotAcc b a := by
    unfold dotAcc
    rw [h]
    exact loopAcc_congr fun i _ => JSNum.mul_commutative _ _
  have hA : magAAcc a = magBAcc b a := by
    unfold magAAcc magBAcc
    rw [h]
  have hB : magBAcc a b = magAAcc b := by
    unfold magAAcc magBAcc
    rw [h]
  rw [hdot, hA, hB, JSNum.mul_commutative]

/-- Witness for C7 at the concrete vectors `[1, 2]` and `[3, 4]`. -/
theorem cosineSimilarity_symm_witness :
    List.length [(1 : ℝ), 2] = List.length [(3 : ℝ), 4] ∧
      cosineSimilarity [(1 : ℝ), 2] [(3 : ℝ), 4] =
        cosineSimilarity [(3 : ℝ), 4] [(1 : ℝ), 2] :=
  ⟨rfl, cosineSimilarity_symm [(1 : ℝ), 2] [(3 : ℝ), 4] rfl⟩

/-- C8: for every vector with at least one nonzero entry,
`cosineSimilarity a a = 1`.  In the exact-real idealization the value
is exactly `1`, hence within any floating-point tolerance of `1.0`. -/
theorem cosineSimilarity_self (a : List ℝ) (h : ∃ x ∈ a, x ≠ 0) :
    cosineSimilarity a a = JSNum.fin 1 := by
  have hSpos := sumSq_pos rfl h
  have hSnn : (0 : ℝ) ≤ ∑ i ∈ Finset.range a.length, a.getD i 0 * a.getD i 0 :=
    hSpos.le
  unfold cosineSimilarity
  rw [dotAcc_fin (le_refl _), magAAcc_fin, magBAcc_fin (le_refl _),
    sqrt_fin_nonneg hSnn, JSNum.mul_fin_fin, Real.mul_self_sqrt hSnn,
    JSNum.div_fin_fin _ hSpos.ne', div_self hSpos.ne']

/-- Witness for C8 at the concrete vector `[1, 0]`. -/
theorem cosineSimilarity_self_witness :
    (∃ x ∈ [(1 : ℝ), 0], x ≠ 0) ∧
      cosineSimilarity [(1 : ℝ), 0] [(1 : ℝ), 0] = JSNum.fin 1 :=
  ⟨⟨1, by simp⟩, cosineSimilarity_self [(1 : ℝ), 0] ⟨1, by simp⟩⟩

/-- Counterexample for C3: at the concrete zero-magnitude input
`a = b = [0]`, `cosineSimilarity` returns `NaN` (the unguarded
division `0 / 0`), not `0`. -/
theorem cosineSimilarity_zero_counterexample :
    cosineSimilarity [(0 : ℝ)] [(0 : ℝ)] = JSNum.nan ∧
      JSNum.nan ≠ JSNum.fin 0 := by
  constructor
  · have h0 : (∑ i ∈ Finset.range (List.length [(0 : ℝ)]),
        [(0 : ℝ)].getD i 0 * [(0 : ℝ)].getD i 0) = 0 := by
      simp
    unfold cosineSimilarity
    rw [dotAcc_fin (le_refl _), magAAcc_fin, magBAcc_fin (le_refl _), h0]
    rw [sqrt_fin_nonneg le_rfl, Real.sqrt_zero, JSNum.mul_fin_fin, mul_zero]
    exact JSNum.div_fin_zero_zero
  · intro h
    exact JSNum.noConfusion h

/-- C3 (amended): for equal-length vectors at least one of which is
the zero vector, `cosineSimilarity` returns `NaN` — the division in
the cosine formula is the unguarded `0 / 0` (zero magnitude forces a
zero dot product), so the result is `NaN`, never `0` and never an
infinity. -/
theorem cosineSimilarity_zero_magnitude (a b : List ℝ)
    (hlen : a.length = b.length)
    (hz : (∀ x ∈ a, x = 0) ∨ (∀ x ∈ b, x = 0)) :
    cosineSimilarity a b = JSNum.nan := by
  unfold cosineSimilarity
  rw [dotAcc_fin hlen.le, magAAcc_fin, magBAcc_fin hlen.le]
  have hSAnn : (0 : ℝ) ≤
      ∑ i ∈ Finset.range a.length, a.getD i 0 * a.getD i 0 :=
    Finset.sum_nonneg fun i _ => mul_self_nonneg _
  have hSBnn : (0 : ℝ) ≤
      ∑ i ∈ Finset.range a.length, b.getD i 0 * b.getD i 0 :=
    Finset.sum_nonneg fun i _ => mul_self_nonneg _
  rcases hz with hza | hzb
  · have ha0 : ∀ i < a.length, a.getD i 0 = 0 := by
      intro i hi
      have hmem := hza a[i] (List.getElem_mem hi)
      simp [List.getD_eq_getElem?_getD, List.getElem?_eq_getElem hi, hmem]
    have hD : (∑ i ∈ Finset.range a.length, a.getD i 0 * b.getD i 0) = 0 :=
      Finset.sum_eq_zero fun i hi => by
        rw [ha0 i (Finset.mem_range.mp hi), zero_mul]
    have hSA : (∑ i ∈ Finset.range a.length, a.getD i 0 * a.getD i 0) = 0 :=
      Finset.sum_eq_zero fun i hi => by
        rw [ha0 i (Finset.mem_range.mp hi), zero_mul]
    rw [hD, hSA, sqrt_fin_nonneg le_rfl, Real.sqrt_zero,
      sqrt_fin_nonneg hSBnn, JSNum.mul_fin_fin, zero_mul]
    exact JSNum.div_fin_zero_zero
  · have hb0 : ∀ i < a.length, b.getD i 0 = 0 := by
      intro i hi
      have hib : i < b.length := by omega
      have hmem := hzb b[i] (List.getElem_mem hib)
      simp [List.getD_eq_getElem?_getD, List.getElem?_eq_getElem hib, hmem]
    have hD : (∑ i ∈ Finset.range a.length, a.getD i 0 * b.getD i 0) = 0 :=
      Finset.sum_eq_zero fun i hi => by
        rw [hb0 i (Finset.mem_range.mp hi), mul_zero]
    have hSB : (∑ i ∈ Finset.range a.length, b.getD i 0 * b.getD i 0) = 0 :=
      Finset.sum_eq_zero fun i hi => by
        rw [hb0 i (Finset.mem_range.mp hi), zero_mul]
    rw [hD, hSB, sqrt_fin_nonneg le_rfl, Real.sqrt_zero,
      sqrt_fin_nonneg hSAnn, JSNum.mul_fin_fin, mul_zero]
    exact JSNum.div_fin_zero_zero

/-- Witness for the amended C3 at the concrete input `a = [0, 1]`,
`b = [0, 0]` (equal lengths, `b` of zero magnitude). -/
theorem cosineSimilarity_zero_magnitude_witness :
    List.length [(0 : ℝ), 1] = List.length [(0 : ℝ), 0] ∧
      (∀ x ∈ [(0 : ℝ), 0], x = 0) ∧
      cosineSimilarity [(0 : ℝ), 1] [(0 : ℝ), 0] = JSNum.nan :=
  ⟨rfl, by simp,
    cosineSimilarity_zero_magnitude [(0 : ℝ), 1] [(0 : ℝ), 0] rfl
      (Or.inr (by simp))⟩

/-- Counterexample for C1: at the concrete mismatched-length input
`a = [1]`, `b = [1, 1]`, `cosineSimilarity` raises nothing and
silently computes the result `1` — exactly the value obtained by
truncating `b` to the length of `a` (the source contains no `throw`
and no `DimensionMismatchError` at all). -/
theorem cosineSimilarity_mismatch_counterexample :
    List.length [(1 : ℝ)] ≠ List.length [(1 : ℝ), 1] ∧
      cosineSimilarity [(1 : ℝ)] [(1 : ℝ), 1] = JSNum.fin 1 ∧
      cosineSimilarity [(1 : ℝ)] [(1 : ℝ), 1] =
        cosineSimilarity [(1 : ℝ)] (List.take 1 [(1 : ℝ), 1]) := by
  have hone : ∀ b : List ℝ, List.length [(1 : ℝ)] ≤ b.length →
      b.getD 0 0 = 1 → cosineSimilarity [(1 : ℝ)] b = JSNum.fin 1 := by
    intro b hb h0
    unfold cosineSimilarity
    rw [dotAcc_fin hb, magAAcc_fin, magBAcc_fin hb]
    simp only [List.length_singleton, Finset.range_one, Finset.sum_singleton,
      h0, List.getD_cons_zero, mul_one, one_mul]
    rw [sqrt_fin_nonneg zero_le_one, Real.sqrt_one, JSNum.mul_fin_fin,
      mul_one, JSNum.div_fin_fin _ one_ne_zero, div_one]
  refine ⟨by simp, hone _ (by simp) (by simp), ?_⟩
  rw [hone _ (by simp) (by simp), hone _ (by simp) (by simp)]

/-- C1 (amended): for vectors of unequal length, `cosineSimilarity`
raises no error and performs no explicit check: the loop runs over the
indices of `a`, so when `b` is longer its extra entries are silently
ignored (the result is the similarity against the truncated `b`), and
when `b` is shorter the out-of-bounds reads make the result `NaN`. -/
theorem cosineSimilarity_mismatch (a b : List ℝ)
    (h : a.length ≠ b.length) :
    cosineSimilarity a b =
      if a.length < b.length then cosineSimilarity a (b.take a.length)
      else JSNum.nan := by
  rcases Nat.lt_or_ge a.length b.length with hlt | hge
  · rw [if_pos hlt]
    have hidx : ∀ i < a.length, jsIdx b i = jsIdx (b.take a.length) i := by
      intro i hi
      have h1 : i < b.length := by omega
      have h2 : i < (b.take a.length).length := by
        simp [List.length_take]
        omega
      rw [jsIdx_lt h1, jsIdx_lt h2]
      simp
    unfold cosineSimilarity
    have hdot : dotAcc a b = dotAcc a (b.take a.length) :=
      loopAcc_congr fun i hi => by rw [hidx i hi]
    have hmagB : magBAcc a b = magBAcc a (b.take a.length) :=
      loopAcc_congr fun i hi => by rw [hidx i hi]
    rw [hdot, hmagB]
  · have hlt : b.length < a.length := by omega
    rw [if_neg (by omega)]
    unfold cosineSimilarity
    rw [dotAcc_nan hlt, JSNum.div_nan_left]

/-- Witness for the amended C1 at the concrete input `a = [1]`,
`b = [1, 1]`. -/
theorem cosineSimilarity_mismatch_witness :
    List.length [(1 : ℝ)] ≠ List.length [(1 : ℝ), 1] ∧
      cosineSimilarity [(1 : ℝ)] [(1 : ℝ), 1] =
        (if List.length [(1 : ℝ)] < List.length [(1 : ℝ), 1] then
          cosineSimilarity [(1 : ℝ)] (List.take (List.length [(1 : ℝ)]) [(1 : ℝ), 1])
        else JSNum.nan) :=
  ⟨by simp, cosineSimilarity_mismatch [(1 : ℝ)] [(1 : ℝ), 1] (by simp)⟩

/-- C5: `retrieveContext` on an empty document store returns the
empty string, for every query embedding, and (being a total function
of the model) raises nothing. -/
theorem retrieveContext_empty_store (queryEmbedding : List ℝ) :
    retrieveContext queryEmbedding [] = "" := by
  simp [retrieveContext, rankedCandidates, scoredCandidates,
    String.intercalate]

/-- C6: when the store holds fewer than `k = 2` documents,
`retrieveContext` returns all stored documents' contents — for a
store of size at most one, rank order coincides with store order —
joined with the newline separator. -/
theorem retrieveContext_small_store (queryEmbedding : List ℝ)
    (documents : List Document) (h : documents.length < 2) :
    retrieveContext queryEmbedding documents =
      String.intercalate "\n" (documents.map fun d => d.content) := by
  rcases documents with _ | ⟨d, _ | ⟨e, rest⟩⟩
  · simp [retrieveContext, rankedCandidates, scoredCandidates,
      String.intercalate]
  · simp [retrieveContext, rankedCandidates, scoredCandidates,
      String.intercalate, String.intercalate.go]
  · exfalso
    simp only [List.length_cons] at h
    omega

/-- Witness for C6 at a concrete one-document store. -/
theorem retrieveContext_small_store_witness :
    List.length [Document.mk "A" [(1 : ℝ)]] < 2 ∧
      retrieveContext [(1 : ℝ)] [Document.mk "A" [(1 : ℝ)]] =
        String.intercalate "\n"
          ([Document.mk "A" [(1 : ℝ)]].map fun d => d.content) :=
  ⟨by simp, retrieveContext_small_store [(1 : ℝ)] [Document.mk "A" [(1 : ℝ)]]
    (by simp)⟩

/-- A total, transitive comparison on candidates (descending order of
the finite score values), used as a proof device: on candidates whose
scores are finite values it coincides with the keep-in-order relation
`candidateLE` of the source comparator. -/
noncomputable def candidateLEReal (x y : ScoredCandidate) : Bool :=
  decide (y.score.finPart ≤ x.score.finPart)

theorem candidateLE_eq_real {x y : ScoredCandidate}
    (hx : ∃ u, x.score = JSNum.fin u) (hy : ∃ v, y.score = JSNum.fin v) :
    candidateLE x y = candidateLEReal x y := by
  obtain ⟨u, hu⟩ := hx
  obtain ⟨v, hv⟩ := hy
  unfold candidateLE candidateLEReal candidateCompare
  rw [hu, hv]
  have hsub : JSNum.sub (JSNum.fin v) (JSNum.fin u) = JSNum.fin (v - u) := rfl
  have hv' : (JSNum.fin v).finPart = v := rfl
  have hu' : (JSNum.fin u).finPart = u := rfl
  rw [hsub, hv', hu']
  rcases le_or_lt v u with h | h
  · simp [JSNum.gtZero, sub_pos, not_lt.mpr h, h]
  · simp [JSNum.gtZero, sub_pos, h, not_le.mpr h]

theorem candidateLEReal_trans : ∀ a b c : ScoredCandidate,
    candidateLEReal a b → candidateLEReal b c → candidateLEReal a c := by
  intro a b c hab hbc
  simp only [candidateLEReal, decide_eq_true_eq] at hab hbc ⊢
  exact le_trans hbc hab

theorem candidateLEReal_total : ∀ a b : ScoredCandidate,
    candidateLEReal a b || candidateLEReal b a := by
  intro a b
  simp only [candidateLEReal, Bool.or_eq_true, decide_eq_true_eq]
  exact le_total _ _

/-- On a list of candidates whose scores are all finite, the stable
sort under the source comparator coincides with the stable sort under
the total, transitive descending-score comparison. -/
theorem mergeSort_candidateLE_eq {l : List ScoredCandidate}
    (hfin : ∀ c ∈ l, ∃ u, c.score = JSNum.fin u) :
    l.mergeSort candidateLE = l.mergeSort candidateLEReal := by
  have h := List.map_mergeSort (f := id) (l := l) (r := candidateLE)
    (s := candidateLEReal)
    (fun x hx y hy => candidateLE_eq_real (hfin x hx) (hfin y hy))
  simpa using h

/-- C2: for a non-empty store whose similarity scores against the
query embedding are all finite (real-valued, as the spec's
`ScoredCandidate` data model stipulates), `retrieveContext` computes
one score per stored document in store order, sorts the candidates by
score descending — stably, so equal scores keep their original store
order — takes the first two, and joins their contents with the
newline separator.  Determinism is inherent: the model is a pure
function of the store and the query embedding. -/
theorem retrieveContext_spec (queryEmbedding : List ℝ)
    (documents : List Document) (hne : documents ≠ [])
    (hfin : ∀ d ∈ documents,
      ∃ u, cosineSimilarity queryEmbedding d.embedding = JSNum.fin u) :
    (scoredCandidates queryEmbedding documents).length = documents.length ∧
    (∀ i, ∀ h : i < documents.length,
      (scoredCandidates queryEmbedding documents).get
          ⟨i, by simpa [scoredCandidates] using h⟩ =
        { content := (documents.get ⟨i, h⟩).content
          score := cosineSimilarity queryEmbedding
            (documents.get ⟨i, h⟩).embedding }) ∧
    (rankedCandidates queryEmbedding documents).Perm
      (scoredCandidates queryEmbedding documents) ∧
    (rankedCandidates queryEmbedding documents).Pairwise
      (fun x y => y.score.finPart ≤ x.score.finPart) ∧
    (∀ x y : ScoredCandidate,
      List.Sublist [x, y] (scoredCandidates queryEmbedding documents) →
      x.score = y.score →
      List.Sublist [x, y] (rankedCandidates queryEmbedding documents)) ∧
    retrieveContext queryEmbedding documents =
      String.intercalate "\n"
        (((rankedCandidates queryEmbedding documents).take 2).map
          fun d => d.content) := by
  have hfin' : ∀ c ∈ scoredCandidates queryEmbedding documents,
      ∃ u, c.score = JSNum.fin u := by
    intro c hc
    obtain ⟨d, hd, rfl⟩ := List.mem_map.mp hc
    exact hfin d hd
  refine ⟨by simp [scoredCandidates], ?_, ?_, ?_, ?_, rfl⟩
  · intro i h
    simp [scoredCandidates, List.get_eq_getElem, List.getElem_map]
  · simpa [rankedCandidates] using
      List.mergeSort_perm (scoredCandidates queryEmbedding documents)
        candidateLE
  · rw [rankedCandidates, mergeSort_candidateLE_eq hfin']
    exact (List.sorted_mergeSort candidateLEReal_trans candidateLEReal_total
      (scoredCandidates queryEmbedding documents)).imp
      (fun h => by simpa [candidateLEReal] using h)
  · intro x y hsub heq
    rw [rankedCandidates, mergeSort_candidateLE_eq hfin']
    refine List.pair_sublist_mergeSort candidateLEReal_trans
      candidateLEReal_total ?_ hsub
    simp [candidateLEReal, heq]

/-- Witness for C2 at the concrete store
`[("A", [1]), ("B", [2])]` with query embedding `[1]`. -/
theorem retrieveContext_spec_witness :
    ([Document.mk "A" [(1 : ℝ)], Document.mk "B" [(2 : ℝ)]] ≠
        ([] : List Document)) ∧
    (∀ d ∈ [Document.mk "A" [(1 : ℝ)], Document.mk "B" [(2 : ℝ)]],
      ∃ u, cosineSimilarity [(1 : ℝ)] d.embedding = JSNum.fin u) ∧
    (rankedCandidates [(1 : ℝ)]
        [Document.mk "A" [(1 : ℝ)], Document.mk "B" [(2 : ℝ)]]).Perm
      (scoredCandidates [(1 : ℝ)]
        [Document.mk "A" [(1 : ℝ)], Document.mk "B" [(2 : ℝ)]]) := by
  have hfin : ∀ d ∈ [Document.mk "A" [(1 : ℝ)], Document.mk "B" [(2 : ℝ)]],
      ∃ u, cosineSimilarity [(1 : ℝ)] d.embedding = JSNum.fin u := by
    intro d hd
    simp only [List.mem_cons, List.not_mem_nil, or_false] at hd
    rcases hd with rfl | rfl
    · exact cosineSimilarity_isFin _ _ rfl ⟨1, by simp, one_ne_zero⟩
        ⟨1, by simp, one_ne_zero⟩
    · exact cosineSimilarity_isFin _ _ rfl ⟨1, by simp, one_ne_zero⟩
        ⟨2, by simp, by norm_num⟩
  exact ⟨by simp, hfin,
    (retrieveContext_spec [(1 : ℝ)]
      [Document.mk "A" [(1 : ℝ)], Document.mk "B" [(2 : ℝ)]]
      (by simp) hfin).2.2.1⟩

/-! ## Lemmas about the streaming relay -/

theorem concatAll_key (l : List String) (a : String) :
    l.foldl (fun acc s => acc ++ s) a = a ++ concatAll l := by
  induction l generalizing a with
  | nil => simp [concatAll]
  | cons t l ih =>
      show (t :: l).foldl (fun acc s => acc ++ s) a = a ++ concatAll (t :: l)
      rw [List.foldl_cons, ih (a ++ t)]
      have hr : concatAll (t :: l) = ("" ++ t) ++ concatAll l := by
        rw [concatAll, List.foldl_cons, ih ("" ++ t)]
      rw [hr, String.empty_append, String.append_assoc]

theorem concatAll_cons (s : String) (l : List String) :
    concatAll (s :: l) = s ++ concatAll l := by
  rw [concatAll, List.foldl_cons, concatAll_key, String.empty_append]

theorem streamLoopEvents_cons_none {c : StreamChunk}
    (h : chunkToken c = none) (cs : List StreamChunk) :
    streamLoopEvents (c :: cs) = streamLoopEvents cs := by
  simp [streamLoopEvents, h]

theorem streamLoopEvents_cons_empty {c : StreamChunk}
    (h : chunkToken c = some "") (cs : List StreamChunk) :
    streamLoopEvents (c :: cs) = streamLoopEvents cs := by
  simp [streamLoopEvents, h]

theorem streamLoopEvents_cons_some {c : StreamChunk} {t : String}
    (h : chunkToken c = some t) (ht : t ≠ "") (cs : List StreamChunk) :
    streamLoopEvents (c :: cs) =
      ResponseEvent.write t :: streamLoopEvents cs := by
  simp [streamLoopEvents, h, ht]

theorem streamLoopEvents_all_writes (cs : List StreamChunk) :
    ∀ e ∈ streamLoopEvents cs, ∃ s, e = ResponseEvent.write s := by
  induction cs with
  | nil =>
      intro e he
      simp [streamLoopEvents] at he
  | cons c cs ih =>
      intro e he
      rcases hct : chunkToken c with _ | t
      · rw [streamLoopEvents_cons_none hct] at he
        exact ih e he
      · by_cases ht : t = ""
        · rw [ht] at hct
          rw [streamLoopEvents_cons_empty hct] at he
          exact ih e he
        · rw [streamLoopEvents_cons_some hct ht] at he
          rcases List.mem_cons.mp he with h | h
          · exact ⟨t, h⟩
          · exact ih e h

theorem writtenStrings_streamLoop_sublist (cs : List StreamChunk) :
    List.Sublist (writtenStrings (streamLoopEvents cs)) (chunkContents cs) := by
  induction cs with
  | nil => simp [streamLoopEvents, chunkContents, writtenStrings]
  | cons c cs ih =>
      rcases hct : chunkToken c with _ | t
      · rw [streamLoopEvents_cons_none hct]
        have h2 : chunkContents (c :: cs) = chunkContents cs := by
          simp [chunkContents, List.filterMap_cons, hct]
        rw [h2]
        exact ih
      · have h2 : chunkContents (c :: cs) = t :: chunkContents cs := by
          simp [chunkContents, List.filterMap_cons, hct]
        by_cases ht : t = ""
        · rw [ht] at hct h2
          rw [streamLoopEvents_cons_empty hct, h2]
          exact ih.cons _
        · rw [streamLoopEvents_cons_some hct ht, h2]
          have hws : writtenStrings
              (ResponseEvent.write t :: streamLoopEvents cs) =
              t :: writtenStrings (streamLoopEvents cs) := by
            simp [writtenStrings, List.filterMap_cons]
          rw [hws]
          exact ih.cons₂ _

theorem concatAll_writtenStrings_streamLoop (cs : List StreamChunk) :
    concatAll (writtenStrings (streamLoopEvents cs)) =
      concatAll (chunkContents cs) := by
  induction cs with
  | nil => rfl
  | cons c cs ih =>
      rcases hct : chunkToken c with _ | t
      · rw [streamLoopEvents_cons_none hct]
        have h2 : chunkContents (c :: cs) = chunkContents cs := by
          simp [chunkContents, List.filterMap_cons, hct]
        rw [h2]
        exact ih
      · have h2 : chunkContents (c :: cs) = t :: chunkContents cs := by
          simp [chunkContents, List.filterMap_cons, hct]
        by_cases ht : t = ""
        · rw [ht] at hct h2
          rw [streamLoopEvents_cons_empty hct, h2, concatAll_cons,
            String.empty_append]
          exact ih
        · rw [streamLoopEvents_cons_some hct ht, h2]
          have hws : writtenStrings
              (ResponseEvent.write t :: streamLoopEvents cs) =
              t :: writtenStrings (streamLoopEvents cs) := by
            simp [writtenStrings, List.filterMap_cons]
          rw [hws, concatAll_cons, concatAll_cons, ih]

theorem endResponse_not_mem_streamLoop (cs : List StreamChunk) :
    ResponseEvent.endResponse ∉ streamLoopEvents cs := by
  intro h
  obtain ⟨s, hs⟩ := streamLoopEvents_all_writes cs _ h
  exact ResponseEvent.noConfusion hs

theorem writtenStrings_chatStream (chunks : List StreamChunk)
    (failed : Bool) :
    writtenStrings (chatStreamEvents chunks failed) =
      writtenStrings (streamLoopEvents chunks) := by
  cases failed <;>
    simp [chatStreamEvents, writtenStrings, List.filterMap_append]

theorem chatStream_count_end (chunks : List StreamChunk) (failed : Bool) :
    (chatStreamEvents chunks failed).count ResponseEvent.endResponse = 1 := by
  have hz : (streamLoopEvents chunks).count ResponseEvent.endResponse = 0 :=
    List.count_eq_zero.mpr (endResponse_not_mem_streamLoop chunks)
  cases failed <;> simp [chatStreamEvents, List.count_append, hz]

/-- C4: on a normally completing stream, the relay writes exactly the
chunks' non-empty tokens in arrival order (a sublist of the token
sequence — no reordering, duplication, or invention), the
concatenation of everything written equals the concatenation of all
chunk contents (skipped empty tokens contribute nothing), and the
response is ended exactly once, after the last write. -/
theorem chatStream_forwards (chunks : List StreamChunk) :
    List.Sublist (writtenStrings (chatStreamEvents chunks false))
      (chunkContents chunks) ∧
    concatAll (writtenStrings (chatStreamEvents chunks false)) =
      concatAll (chunkContents chunks) ∧
    (chatStreamEvents chunks false).count ResponseEvent.endResponse = 1 ∧
    (∃ ws, chatStreamEvents chunks false =
        ws ++ [ResponseEvent.endResponse] ∧
      ∀ e ∈ ws, ∃ s, e = ResponseEvent.write s) := by
  refine ⟨?_, ?_, chatStream_count_end chunks false, ?_⟩
  · rw [writtenStrings_chatStream]
    exact writtenStrings_streamLoop_sublist chunks
  · rw [writtenStrings_chatStream]
    exact concatAll_writtenStrings_streamLoop chunks
  · exact ⟨streamLoopEvents chunks, by simp [chatStreamEvents],
      streamLoopEvents_all_writes chunks⟩

/-- C9: on a run that fails mid-stream (after any prefix of delivered
chunks, including before the first), the relay's `catch` block ends
the response: the event sequence is some writes followed by exactly
one `res.end()`, nothing is emitted after the end, and no error
status/body is ever delivered to the client. -/
theorem chatStream_failure_ends (delivered : List StreamChunk) :
    (∃ ws, chatStreamEvents delivered true =
        ws ++ [ResponseEvent.endResponse] ∧
      ∀ e ∈ ws, ∃ s, e = ResponseEvent.write s) ∧
    (chatStreamEvents delivered true).count ResponseEvent.endResponse = 1 ∧
    (∀ status body,
      ResponseEvent.errorJson status body ∉ chatStreamEvents delivered true) := by
  refine ⟨⟨streamLoopEvents delivered, by simp [chatStreamEvents],
    streamLoopEvents_all_writes delivered⟩,
    chatStream_count_end delivered true, ?_⟩
  intro status body hmem
  simp only [chatStreamEvents, if_true] at hmem
  rcases List.mem_append.mp hmem with h | h
  · obtain ⟨s, hs⟩ := streamLoopEvents_all_writes delivered _ h
    exact ResponseEvent.noConfusion hs
  · rcases List.mem_singleton.mp h with h'
    exact ResponseEvent.noConfusion h'

/-- C10: a chunk whose first choice has an absent or empty-string
delta content is not forwarded: the relay's response events are
exactly those of the remaining chunks. -/
theorem chatStream_empty_token_skipped (c : StreamChunk)
    (h : chunkToken c = none ∨ chunkToken c = some "") :
    ∀ (cs : List StreamChunk) (failed : Bool),
      chatStreamEvents (c :: cs) failed = chatStreamEvents cs failed := by
  intro cs failed
  have hloop : streamLoopEvents (c :: cs) = streamLoopEvents cs := by
    rcases h with h | h
    · exact streamLoopEvents_cons_none h cs
    · exact streamLoopEvents_cons_empty h cs
  cases failed <;> simp [chatStreamEvents, hloop]

/-- Witness for C10 at a concrete chunk with no choices, followed by
one chunk carrying the token `"hi"`. -/
theorem chatStream_empty_token_skipped_witness :
    (chunkToken (StreamChunk.mk []) = none ∨
      chunkToken (StreamChunk.mk []) = some "") ∧
    chatStreamEvents
        [StreamChunk.mk [],
          StreamChunk.mk [ChunkChoice.mk (ChunkDelta.mk (some "hi"))]]
        false =
      chatStreamEvents
        [StreamChunk.mk [ChunkChoice.mk (ChunkDelta.mk (some "hi"))]]
        false :=
  ⟨Or.inl rfl,
    chatStream_empty_token_skipped (StreamChunk.mk []) (Or.inl rfl)
      [StreamChunk.mk [ChunkChoice.mk (ChunkDelta.mk (some "hi"))]] false⟩
